import Mathlib

/-!
# Verification of `chefir_tree_escape/tree_query.py`

A shallow embedding of the `Tree` class of
`src/chefir_tree_escape/chefir_tree_escape/tree_query.py` and proofs about
its query operations.

Modelling conventions:
* Python `int` values become `Int`; list indices go through `pyGet`/`pySet`,
  which implement Python list-subscript semantics (negative indices wrap,
  out-of-range raises `IndexError`).
* Methods that can raise return `Except PyErr _`; the read-only query
  methods additionally return the (unchanged) `Tree`, mirroring that a
  Python method call runs against the object's state and leaves it behind.
* The recursive DFS passes (`_dfs`, `_compute_farthest`) take a fuel
  argument standing in for Python's recursion limit; exhausting it raises
  `recursionError`.  `preprocess` supplies fuel that is ample for every
  input considered in this development.
* `defaultdict(list)` becomes an association list with `[]` as the default
  value of an absent key.
-/

namespace Chefir

/-- Runtime errors a Python method of `tree_query.py` can raise. -/
inductive PyErr where
  | indexError : PyErr
  | runtimeError : String → PyErr
  | recursionError : PyErr
deriving DecidableEq, Repr

/-- Python list subscript read `xs[i]`: non-negative indices are direct,
negative indices wrap from the end, anything else raises `IndexError`. -/
def pyGet {α : Type} [Inhabited α] (xs : List α) (i : Int) : Except PyErr α :=
  if 0 ≤ i ∧ i < (xs.length : Int) then .ok (xs.getD i.toNat default)
  else if -(xs.length : Int) ≤ i ∧ i < 0 then
    .ok (xs.getD ((xs.length : Int) + i).toNat default)
  else .error .indexError

/-- Python list subscript write `xs[i] = a`, with the same index rules as
`pyGet`. -/
def pySet {α : Type} (xs : List α) (i : Int) (a : α) : Except PyErr (List α) :=
  if 0 ≤ i ∧ i < (xs.length : Int) then .ok (xs.set i.toNat a)
  else if -(xs.length : Int) ≤ i ∧ i < 0 then
    .ok (xs.set ((xs.length : Int) + i).toNat a)
  else .error .indexError

/-- Fuel-indexed bit counting: the number of halvings of `n` down to 0.
Structural recursion (rather than recursion on `n / 2`) keeps it reducible
inside the kernel; `fuel ≥ n` is always enough. -/
def bitLenAux : Nat → Nat → Nat
  | 0, _ => 0
  | fuel + 1, n => if n = 0 then 0 else bitLenAux fuel (n / 2) + 1

/-- Python `int.bit_length()`. -/
def bitLength (n : Nat) : Nat := bitLenAux n n

instance {ε α : Type} [DecidableEq ε] [DecidableEq α] : DecidableEq (Except ε α) :=
  fun x y =>
    match x, y with
    | .ok a, .ok b =>
      if h : a = b then .isTrue (by rw [h]) else .isFalse (by simp [h])
    | .error a, .error b =>
      if h : a = b then .isTrue (by rw [h]) else .isFalse (by simp [h])
    | .ok _, .error _ => .isFalse (by simp)
    | .error _, .ok _ => .isFalse (by simp)

/-- Python `k & (1 << i) != 0`: bit `i` of the two's-complement form of `k`. -/
def intTestBit (k : Int) (i : Nat) : Bool :=
  if 0 ≤ k then k.toNat.testBit i else !((-k - 1).toNat.testBit i)

/-- Lookup in the adjacency `defaultdict(list)`: the list of an absent key
is empty. -/
def adjGet (es : List (Int × List Int)) (u : Int) : List Int :=
  match es.find? (fun p => p.1 == u) with
  | some p => p.2
  | none => []

/-- `es[u].append(x)` on the adjacency `defaultdict(list)`. -/
def adjApp (es : List (Int × List Int)) (u : Int) (x : Int) : List (Int × List Int) :=
  match es.find? (fun p => p.1 == u) with
  | some _ => es.map (fun p => if p.1 == u then (p.1, p.2 ++ [x]) else p)
  | none => es ++ [(u, [x])]

/-- The state of a `Tree` object of `tree_query.py`. -/
structure Tree where
  n : Nat
  edges : List (Int × List Int)
  depth : List Int
  parent : List Int
  LOGN : Nat
  up : List (List Int)
  max_depth_in_subtree : List Int
  farthest_node : List Int
  _preprocessed : Bool
deriving DecidableEq, Repr

/-- `Tree.__init__(n)`. -/
def Tree.init (n : Nat) : Tree where
  n := n
  edges := []
  depth := List.replicate (n + 1) 0
  parent := List.replicate (n + 1) 0
  LOGN := max 1 (bitLength n)
  up := List.replicate (n + 1) (List.replicate (max 1 (bitLength n) + 1) 0)
  max_depth_in_subtree := List.replicate (n + 1) 0
  farthest_node := List.replicate (n + 1) 0
  _preprocessed := false

/-- `Tree.add_edge(u, v)`. -/
def Tree.add_edge (t : Tree) (u v : Int) : Tree :=
  { t with edges := adjApp (adjApp t.edges u v) v u }

/-- The body of `Tree._dfs`: having just entered node `u` from parent `p`
(with `parent[u]` already set), walk the remaining adjacency list `vs` of
`u`; for each non-parent neighbour `v`, set `depth[v] = depth[u] + 1`, set
`parent[v] = u`, and recurse into `v`'s adjacency list.  The fuel bounds
the total number of traversal steps and stands in for Python's recursion
limit. -/
def dfsRun (t : Tree) : Nat → List Int → Int → Int → Tree → Except PyErr Tree
  | 0, _, _, _, _ => .error .recursionError
  | _ + 1, [], _, _, s => .ok s
  | fuel + 1, v :: vs, u, p, s =>
    if v ≠ p then
      match pyGet s.depth u with
      | .error e => .error e
      | .ok du =>
        match pySet s.depth v (du + 1) with
        | .error e => .error e
        | .ok dep =>
          match pySet ({ s with depth := dep }).parent v u with
          | .error e => .error e
          | .ok par =>
            match dfsRun t fuel (adjGet s.edges v) v u
                { s with depth := dep, parent := par } with
            | .error e => .error e
            | .ok s' => dfsRun t fuel vs u p s'
    else dfsRun t fuel vs u p s

/-- `Tree._dfs(u, p)`: set `parent[u] = p` and walk `u`'s adjacency list. -/
def dfsTop (fuel : Nat) (u p : Int) (t : Tree) : Except PyErr Tree :=
  match pySet t.parent u p with
  | .error e => .error e
  | .ok par => dfsRun t fuel (adjGet t.edges u) u p { t with parent := par }

/-- First loop of `Tree._build_lifting`: `up[v][0] = parent[v]` for
`v = 1..n`. -/
def liftInit (t : Tree) : Except PyErr Tree :=
  (List.range' 1 t.n).foldlM (fun (s : Tree) (v : Nat) =>
    match pyGet s.up (v : Int) with
    | .error e => .error e
    | .ok row =>
      match pyGet s.parent (v : Int) with
      | .error e => .error e
      | .ok pv =>
        match pySet row 0 pv with
        | .error e => .error e
        | .ok row' =>
          match pySet s.up (v : Int) row' with
          | .error e => .error e
          | .ok up' => .ok { s with up := up' }) t

/-- Second loop of `Tree._build_lifting`:
`up[v][k] = up[up[v][k-1]][k-1]` for `k = 1..LOGN`, `v = 1..n`. -/
def liftStep (t : Tree) : Except PyErr Tree :=
  (List.range' 1 t.LOGN).foldlM (fun (s : Tree) (k : Nat) =>
    (List.range' 1 s.n).foldlM (fun (s : Tree) (v : Nat) =>
      match pyGet s.up (v : Int) with
      | .error e => .error e
      | .ok rowv =>
        match pyGet rowv ((k : Int) - 1) with
        | .error e => .error e
        | .ok a =>
          match pyGet s.up a with
          | .error e => .error e
          | .ok rowa =>
            match pyGet rowa ((k : Int) - 1) with
            | .error e => .error e
            | .ok b =>
              match pySet rowv (k : Int) b with
              | .error e => .error e
              | .ok rowv' =>
                match pySet s.up (v : Int) rowv' with
                | .error e => .error e
                | .ok up' => .ok { s with up := up' }) s) t

/-- `Tree._build_lifting()`. -/
def buildLifting (t : Tree) : Except PyErr Tree :=
  match liftInit t with
  | .error e => .error e
  | .ok t1 => liftStep t1

/-- The body of `Tree._compute_farthest`: having just entered node `u` from
parent `p` (with `max_depth_in_subtree[u]` and `farthest_node[u]` already
initialised), walk the remaining adjacency list of `u`; for each non-parent
neighbour `v`, initialise `v`, recurse into `v`'s adjacency list, then fold
`v`'s results into `u`'s. -/
def cfRun (t : Tree) : Nat → List Int → Int → Int → Tree → Except PyErr Tree
  | 0, _, _, _, _ => .error .recursionError
  | _ + 1, [], _, _, s => .ok s
  | fuel + 1, v :: vs, u, p, s =>
    if v ≠ p then
      match pyGet s.depth v with
      | .error e => .error e
      | .ok dv =>
        match pySet s.max_depth_in_subtree v dv with
        | .error e => .error e
        | .ok md =>
          match pySet ({ s with max_depth_in_subtree := md }).farthest_node v v with
          | .error e => .error e
          | .ok fn =>
            match cfRun t fuel (adjGet s.edges v) v u
                { s with max_depth_in_subtree := md, farthest_node := fn } with
            | .error e => .error e
            | .ok s' =>
              match pyGet s'.max_depth_in_subtree v with
              | .error e => .error e
              | .ok mv =>
                match pyGet s'.max_depth_in_subtree u with
                | .error e => .error e
                | .ok mu =>
                  if mu < mv then
                    match pySet s'.max_depth_in_subtree u mv with
                    | .error e => .error e
                    | .ok md' =>
                      match pyGet s'.farthest_node v with
                      | .error e => .error e
                      | .ok fv =>
                        match pySet ({ s' with max_depth_in_subtree := md' }).farthest_node u fv with
                        | .error e => .error e
                        | .ok fn' =>
                          cfRun t fuel vs u p
                            { s' with max_depth_in_subtree := md', farthest_node := fn' }
                  else cfRun t fuel vs u p s'
    else cfRun t fuel vs u p s

/-- `Tree._compute_farthest(u, p)`: initialise node `u` and walk its
adjacency list. -/
def cfTop (fuel : Nat) (u p : Int) (t : Tree) : Except PyErr Tree :=
  match pyGet t.depth u with
  | .error e => .error e
  | .ok du =>
    match pySet t.max_depth_in_subtree u du with
    | .error e => .error e
    | .ok md =>
      match pySet ({ t with max_depth_in_subtree := md }).farthest_node u u with
      | .error e => .error e
      | .ok fn =>
        cfRun t fuel (adjGet t.edges u) u p
          { t with max_depth_in_subtree := md, farthest_node := fn }

/-- `Tree.preprocess()`: DFS from the root 1, build the lifting table,
compute farthest nodes, and set the `_preprocessed` flag.  The fuel
`4 * n + 1000` is ample for every input considered here. -/
def Tree.preprocess (t : Tree) : Except PyErr Tree :=
  match dfsTop (4 * t.n + 1000) 1 0 t with
  | .error e => .error e
  | .ok t1 =>
    match buildLifting t1 with
    | .error e => .error e
    | .ok t2 =>
      match cfTop (4 * t.n + 1000) 1 0 t2 with
      | .error e => .error e
      | .ok t3 => .ok { t3 with _preprocessed := true }

/-- The loop of `Tree.get_kth_ancestor`: scan bits `i, i+1, ...` of `k`
(`fuel` bits remain); on a set bit hop to `up[u][i]`, breaking with 0 when
the hop hits the sentinel. -/
def kthAux (t : Tree) (k : Int) : Nat → Nat → Int → Except PyErr Int
  | 0, _, u => .ok u
  | fuel + 1, i, u =>
    if intTestBit k i then
      match pyGet t.up u with
      | .error e => .error e
      | .ok row =>
        match pyGet row (i : Int) with
        | .error e => .error e
        | .ok u' => if u' == 0 then .ok u' else kthAux t k fuel (i + 1) u'
    else kthAux t k fuel (i + 1) u

/-- `Tree.get_kth_ancestor(u, k)`: the k-th ancestor of `u`, or the
sentinel 0 when it does not exist. -/
def Tree.get_kth_ancestor (t : Tree) (u k : Int) : Except PyErr (Int × Tree) :=
  match kthAux t k (t.LOGN + 1) 0 u with
  | .error e => .error e
  | .ok r => .ok (r, t)

/-- `Tree.is_ancestor(u, v)`: raise `v` to the depth of `u` and compare. -/
def Tree.is_ancestor (t : Tree) (u v : Int) : Except PyErr (Bool × Tree) :=
  match pyGet t.depth v with
  | .error e => .error e
  | .ok dv =>
    match pyGet t.depth u with
    | .error e => .error e
    | .ok du =>
      if dv < du then .ok (false, t)
      else
        match t.get_kth_ancestor v (dv - du) with
        | .error e => .error e
        | .ok (vup, t') => .ok (vup == u, t')

/-- The first (binary-lifting) loop of `Tree.get_farthest_distance`:
`for k in range(LOGN, -1, -1)`, climbing `u` while `stamina_left` allows.
Its result is discarded by the caller (`u` is reassigned to `v` right
after the loop). -/
def liftLoop (t : Tree) : Nat → Int → Int → Except PyErr (Int × Int)
  | 0, u, sl => .ok (u, sl)
  | fuel + 1, u, sl =>
    if (2 ^ fuel : Int) ≤ sl then
      match pyGet t.up u with
      | .error e => .error e
      | .ok row =>
        match pyGet row (fuel : Int) with
        | .error e => .error e
        | .ok ua =>
          if ua == 0 then liftLoop t fuel u sl
          else liftLoop t fuel ua (sl - 2 ^ fuel)
    else liftLoop t fuel u sl

/-- The second loop of `Tree.get_farthest_distance`:
`for used in range(1, stamina + 1)`, with `fuel` iterations remaining,
query the `used`-th ancestor of `v`, break on the sentinel, otherwise fold
in the candidate `max_depth_in_subtree[ancestor] - depth[v] + used`. -/
def candLoop (v dv : Int) : Nat → Int → Int → Tree → Except PyErr (Int × Tree)
  | 0, _, maxd, t => .ok (maxd, t)
  | fuel + 1, used, maxd, t =>
    match t.get_kth_ancestor v used with
    | .error e => .error e
    | .ok (ua, t') =>
      if ua == 0 then .ok (maxd, t')
      else
        match pyGet t'.max_depth_in_subtree ua with
        | .error e => .error e
        | .ok ma =>
          candLoop v dv fuel (used + 1)
            (if maxd < ma - dv + used then ma - dv + used else maxd) t'

/-- `Tree.get_farthest_distance(v, stamina)`: guard on `_preprocessed`,
take the pure-descent baseline, run the (dead) binary-lifting climb loop,
then maximise over the ancestors reachable within `stamina`. -/
def Tree.get_farthest_distance (t : Tree) (v stamina : Int) : Except PyErr (Int × Tree) :=
  if t._preprocessed = false then
    .error (.runtimeError "Tree must be preprocessed before querying.")
  else
    match pyGet t.max_depth_in_subtree v with
    | .error e => .error e
    | .ok mv =>
      match pyGet t.depth v with
      | .error e => .error e
      | .ok dv =>
        match liftLoop t (t.LOGN + 1) v stamina with
        | .error e => .error e
        | .ok _ => candLoop v dv stamina.toNat 1 (mv - dv) t

/-- `Tree.get_farthest_distance` with its first binary-lifting loop
deleted, the simplified function of the refinement claim: everything else
is kept verbatim. -/
def Tree.farthestNoClimbLoop (t : Tree) (v stamina : Int) : Except PyErr (Int × Tree) :=
  if t._preprocessed = false then
    .error (.runtimeError "Tree must be preprocessed before querying.")
  else
    match pyGet t.max_depth_in_subtree v with
    | .error e => .error e
    | .ok mv =>
      match pyGet t.depth v with
      | .error e => .error e
      | .ok dv => candLoop v dv stamina.toNat 1 (mv - dv) t

/-- Build a `Tree` from `n` and an edge list, as `main.py` does. -/
def mkTree (n : Nat) (es : List (Int × Int)) : Tree :=
  es.foldl (fun t e => t.add_edge e.1 e.2) (Tree.init n)

/-- The star tree of the spec's Scenario 1, before `preprocess()`. -/
def starRaw : Tree := mkTree 4 [(1, 2), (1, 3), (1, 4)]

/-- The star tree of the spec's Scenario 1, after `preprocess()`. -/
def star4 : Tree :=
  match starRaw.preprocess with
  | .ok t => t
  | .error _ => starRaw

/-- A malformed input: 3 nodes but a single edge (wrong edge count,
disconnected), built and preprocessed without any complaint from the code. -/
def bad3 : Tree :=
  match (mkTree 3 [(1, 2)]).preprocess with
  | .ok t => t
  | .error _ => mkTree 3 [(1, 2)]

/-- `depth[v]` for a natural node index. -/
def depv (t : Tree) (v : Nat) : Int := t.depth.getD v 0

/-- `max_depth_in_subtree[v]` for a natural node index. -/
def mdep (t : Tree) (v : Nat) : Int := t.max_depth_in_subtree.getD v 0

/-- `up[v][i]` for natural indices. -/
def upv (t : Tree) (v i : Nat) : Int := (t.up.getD v []).getD i 0

/-- The state `preprocess()` establishes on a well-formed tree input
(`n ≥ 1`, the `n - 1` edges connect `[1, n]` into a tree): array sizes from
the constructor, the flag set, depths in range with node 1 the unique root,
the lifting table pointing 2^i steps up (sentinel 0 past the root), and the
subtree maximum dominating the node's own depth.  `star4_valid` checks the
whole record on a concretely preprocessed tree. -/
structure Valid (t : Tree) : Prop where
  hn : 1 ≤ t.n
  hpre : t._preprocessed = true
  hLOGN : t.LOGN = max 1 (bitLength t.n)
  hdepLen : t.depth.length = t.n + 1
  hmaxLen : t.max_depth_in_subtree.length = t.n + 1
  hupLen : t.up.length = t.n + 1
  hrowLen : ∀ v : Nat, v ≤ t.n → (t.up.getD v []).length = t.LOGN + 1
  hupRange : ∀ v : Nat, v ≤ t.n → ∀ i : Nat, i ≤ t.LOGN →
    0 ≤ upv t v i ∧ upv t v i ≤ (t.n : Int)
  hdepRange : ∀ v : Nat, v ≤ t.n → 0 ≤ depv t v ∧ depv t v ≤ (t.n : Int) - 1
  hupPos : ∀ v : Nat, v ≤ t.n → 1 ≤ v → ∀ i : Nat, i ≤ t.LOGN →
    (2 ^ i : Int) ≤ depv t v →
    1 ≤ upv t v i ∧ depv t (upv t v i).toNat = depv t v - 2 ^ i
  hupNeg : ∀ v : Nat, v ≤ t.n → 1 ≤ v → ∀ i : Nat, i ≤ t.LOGN →
    depv t v < (2 ^ i : Int) → upv t v i = 0
  hroot : depv t 1 = 0
  hrootUniq : ∀ v : Nat, v ≤ t.n → 1 ≤ v → depv t v = 0 → v = 1
  hregM : ∀ v : Nat, v ≤ t.n → 1 ≤ v → depv t v ≤ mdep t v

/-- The concretely preprocessed star tree satisfies the whole invariant. -/
theorem star4_valid : Valid star4 := by
  refine ⟨?_, ?_, ?_, ?_, ?_, ?_, ?_, ?_, ?_, ?_, ?_, ?_, ?_, ?_⟩ <;> decide

/-- C1: on the star tree the code answers 1 for query `(1, 0)` as the spec
says, but answers 1 — not the specified 2 — for query `(2, 1)`: the
candidate `max_depth_in_subtree[a] - depth[v] + used` equals the ancestor's
pure-descent value and drops the climbed distance. -/
theorem C1_star_query_eval :
    star4.get_farthest_distance 1 0 = .ok (1, star4) ∧
    star4.get_farthest_distance 2 1 = .ok (1, star4) := by
  constructor <;> decide

/-- C5 counterexample: on a star tree that has not been preprocessed, the
k-th-ancestor and ancestor-predicate queries return values instead of
failing; only the farthest-reachable query is guarded. -/
theorem C5_counterexample :
    starRaw._preprocessed = false ∧
    starRaw.get_kth_ancestor 2 1 = .ok (0, starRaw) ∧
    starRaw.is_ancestor 1 1 = .ok (true, starRaw) := by
  refine ⟨by decide, by decide, by decide⟩

/-- C5 amended: before `preprocess()` has completed, the farthest-reachable
query fails with the RuntimeError guard, while the k-th-ancestor and
ancestor-predicate queries do not fail and return values computed from the
unpreprocessed arrays. -/
theorem C5_only_farthest_guarded :
    (∀ (t : Tree) (v s : Int), t._preprocessed = false →
      t.get_farthest_distance v s =
        .error (.runtimeError "Tree must be preprocessed before querying.")) ∧
    starRaw.get_kth_ancestor 2 1 = .ok (0, starRaw) ∧
    starRaw.is_ancestor 1 1 = .ok (true, starRaw) := by
  refine ⟨fun t v s h => ?_, by decide, by decide⟩
  simp [Tree.get_farthest_distance, h]

/-- C5 witness: the guard fires on the concrete unpreprocessed star tree. -/
theorem C5_witness :
    starRaw.get_farthest_distance 2 1 =
      .error (.runtimeError "Tree must be preprocessed before querying.") :=
  C5_only_farthest_guarded.1 starRaw 2 1 (by decide)

/-- C6 counterexample: building a tree from malformed structural input
(3 nodes, one single edge: wrong edge count and a disconnected graph)
raises no error at build time; the index comes out fully flagged. -/
theorem C6_counterexample :
    (mkTree 3 [(1, 2)]).preprocess = .ok bad3 ∧ bad3._preprocessed = true := by
  refine ⟨by decide, by decide⟩

/-- C6 amended: the code performs no structural validation: `add_edge`
accepts any pair, `preprocess()` completes without error on malformed input
(wrong edge count, disconnected graph), marks the index preprocessed, and
queries then run on it. -/
theorem C6_no_validation :
    (mkTree 3 [(1, 2)]).preprocess = .ok bad3 ∧
    bad3._preprocessed = true ∧
    bad3.get_farthest_distance 3 0 = .ok (0, bad3) := by
  refine ⟨by decide, by decide, by decide⟩

/-- C7 counterexample: the node id 0 lies outside `[1, n]`, yet the
farthest-reachable query answers it from the sentinel row instead of
rejecting it. -/
theorem C7_counterexample :
    star4.get_farthest_distance 0 0 = .ok (0, star4) := by decide

@[simp] theorem default_int : (default : Int) = 0 := rfl

@[simp] theorem default_listInt : (default : List Int) = [] := rfl

/-- A non-negative in-range index reads directly. -/
theorem pyGet_ok {α : Type} [Inhabited α] (xs : List α) (i : Int)
    (h0 : 0 ≤ i) (h : i < (xs.length : Int)) :
    pyGet xs i = .ok (xs.getD i.toNat default) := by
  unfold pyGet; rw [if_pos ⟨h0, h⟩]

/-- A natural in-range index reads directly. -/
theorem pyGet_natOk {α : Type} [Inhabited α] (xs : List α) (i : Nat)
    (h : i < xs.length) :
    pyGet xs (i : Int) = .ok (xs.getD i default) := by
  rw [pyGet_ok xs (i : Int) (Int.natCast_nonneg i) (by exact_mod_cast h),
    Int.toNat_natCast]

/-- Any successful read names some in-range natural index. -/
theorem pyGet_ok_ex {α : Type} [Inhabited α] (xs : List α) (i : Int)
    (h1 : -(xs.length : Int) ≤ i) (h2 : i < (xs.length : Int)) :
    ∃ j : Nat, j < xs.length ∧ pyGet xs i = .ok (xs.getD j default) := by
  unfold pyGet
  by_cases h0 : 0 ≤ i
  · exact ⟨i.toNat, by omega, by rw [if_pos ⟨h0, h2⟩]⟩
  · exact ⟨((xs.length : Int) + i).toNat, by omega,
      by rw [if_neg (by omega), if_pos ⟨h1, by omega⟩]⟩

/-- A successful read implies the index was in Python's accepted range. -/
theorem pyGet_ok_range {α : Type} [Inhabited α] {xs : List α} {i : Int} {a : α}
    (h : pyGet xs i = .ok a) :
    -(xs.length : Int) ≤ i ∧ i < (xs.length : Int) := by
  unfold pyGet at h
  by_cases hc : (0 : Int) ≤ i ∧ i < (xs.length : Int)
  · omega
  · rw [if_neg hc] at h
    by_cases hc' : -(xs.length : Int) ≤ i ∧ i < 0
    · omega
    · rw [if_neg hc'] at h; cases h

/-- The value of the bits `i, i+1, ..., i+fuel-1` of `K`. -/
def partSum (K : Nat) : Nat → Nat → Nat
  | _, 0 => 0
  | i, fuel + 1 => (if K.testBit i then 2 ^ i else 0) + partSum K (i + 1) fuel

/-- `partSum` is the middle bit-slice of `K`. -/
theorem partSum_eq (K : Nat) : ∀ (fuel i : Nat),
    partSum K i fuel = 2 ^ i * (K >>> i % 2 ^ fuel) := by
  intro fuel
  induction fuel with
  | zero => intro i; simp [partSum, Nat.mod_one]
  | succ f ih =>
    intro i
    rw [partSum, ih (i + 1)]
    have h1 : K >>> (i + 1) = K >>> i / 2 := Nat.shiftRight_succ K i
    have h2 : K.testBit i = decide (K >>> i % 2 = 1) := by
      rw [Nat.testBit_to_div_mod, Nat.shiftRight_eq_div_pow]
    have h3 : K >>> i % 2 ^ (f + 1) = 2 * (K >>> i / 2 % 2 ^ f) + K >>> i % 2 := by
      have e1 : 2 ^ (f + 1) = 2 * 2 ^ f := by ring
      conv_lhs => rw [← Nat.div_add_mod (K >>> i) 2]
      rw [e1, Nat.add_mod, Nat.mul_mod_mul_left]
      have e3 : K >>> i / 2 % 2 ^ f < 2 ^ f := Nat.mod_lt _ (by positivity)
      have e2 : K >>> i % 2 < 2 := Nat.mod_lt _ (by norm_num)
      have e4 : 0 < 2 ^ f := by positivity
      generalize K >>> i / 2 % 2 ^ f = a at e3 ⊢
      generalize K >>> i % 2 = b at e2 ⊢
      generalize 2 ^ f = A at e3 e4 ⊢
      rw [Nat.mod_eq_of_lt (show b < 2 * A by omega),
        Nat.mod_eq_of_lt (show 2 * a + b < 2 * A by omega)]
    rw [h1, h2, h3]
    rcases Nat.mod_two_eq_zero_or_one (K >>> i) with h | h <;>
      simp [h, pow_succ] <;> ring

/-- All bits of `K` fit in the scanned window, so the slice is `K` itself. -/
theorem partSum_full (K m : Nat) (h : K < 2 ^ m) : partSum K 0 m = K := by
  rw [partSum_eq, Nat.shiftRight_zero, Nat.mod_eq_of_lt h, pow_zero, one_mul]

/-- For non-negative `k`, the Python bit test is `Nat.testBit`. -/
theorem intTestBit_nonneg {k : Int} (h : 0 ≤ k) (i : Nat) :
    intTestBit k i = k.toNat.testBit i := by
  rw [intTestBit, if_pos h]

/-- With enough fuel, `bitLenAux` dominates its input. -/
theorem lt_two_pow_bitLenAux : ∀ (fuel n : Nat), n ≤ fuel → n < 2 ^ bitLenAux fuel n := by
  intro fuel
  induction fuel with
  | zero => intro n h; interval_cases n; simp [bitLenAux]
  | succ f ih =>
    intro n h
    by_cases h0 : n = 0
    · simp [bitLenAux, h0]
    · rw [bitLenAux, if_neg h0]
      have hh := ih (n / 2) (by omega)
      rw [pow_succ]
      omega

/-- `n` is below `2 ^ LOGN` on a valid tree. -/
theorem n_lt_two_pow {t : Tree} (hV : Valid t) : t.n < 2 ^ t.LOGN := by
  rw [hV.hLOGN]
  have h1 : t.n < 2 ^ bitLength t.n := lt_two_pow_bitLenAux t.n t.n le_rfl
  exact lt_of_lt_of_le h1 (Nat.pow_le_pow_right (by omega) (le_max_right 1 _))

/-- Walking zero steps returns the start node unchanged. -/
theorem kthAux_zero (t : Tree) : ∀ (fuel i : Nat) (u : Int),
    kthAux t 0 fuel i u = .ok u := by
  intro fuel
  induction fuel with
  | zero => intro i u; rfl
  | succ f ih =>
    intro i u
    rw [kthAux, intTestBit_nonneg le_rfl]
    simp [ih]

/-- With zero stamina the climb loop never moves. -/
theorem liftLoop_zero (t : Tree) : ∀ (fuel : Nat) (u : Int),
    liftLoop t fuel u 0 = .ok (u, 0) := by
  intro fuel
  induction fuel with
  | zero => intro u; rfl
  | succ f ih =>
    intro u
    rw [liftLoop, if_neg (not_le.mpr (by positivity))]
    exact ih u

/-- When the bit-slice still to scan fits below the node's depth, the walk
of `get_kth_ancestor` succeeds and descends by exactly that slice. -/
theorem kthAux_descend (t : Tree) (hV : Valid t) {k : Int} (hk : 0 ≤ k) :
    ∀ (fuel i : Nat) (u : Int), i + fuel ≤ t.LOGN + 1 →
      1 ≤ u → u ≤ (t.n : Int) →
      (partSum k.toNat i fuel : Int) ≤ depv t u.toNat →
      ∃ w : Int, kthAux t k fuel i u = .ok w ∧ 1 ≤ w ∧ w ≤ (t.n : Int) ∧
        depv t w.toNat = depv t u.toNat - (partSum k.toNat i fuel : Int) := by
  intro fuel
  induction fuel with
  | zero =>
    intro i u _ hu1 hu2 _
    exact ⟨u, rfl, hu1, hu2, by simp [partSum]⟩
  | succ f ih =>
    intro i u hle hu1 hu2 hsum
    have hiL : i ≤ t.LOGN := by omega
    have huN : u.toNat ≤ t.n := by omega
    have h1u : 1 ≤ u.toNat := by omega
    by_cases hb : k.toNat.testBit i
    · have hstep : partSum k.toNat i (f + 1) = 2 ^ i + partSum k.toNat (i + 1) f := by
        simp [partSum, hb]
      have hpow : (2 ^ i : Int) ≤ depv t u.toNat := by
        rw [hstep] at hsum; push_cast at hsum; omega
      obtain ⟨hw1, hwd⟩ := hV.hupPos u.toNat huN h1u i hiL hpow
      have hwr := hV.hupRange u.toNat huN i hiL
      have hrow : pyGet t.up u = .ok (t.up.getD u.toNat default) :=
        pyGet_ok _ _ (by omega) (by rw [hV.hupLen]; omega)
      have hrlen : (t.up.getD u.toNat default).length = t.LOGN + 1 := by
        simpa using hV.hrowLen u.toNat huN
      have hcell : pyGet (t.up.getD u.toNat default) (i : Int) = .ok (upv t u.toNat i) := by
        rw [pyGet_natOk _ i (by rw [hrlen]; omega)]; simp [upv]
      have h0 : (upv t u.toNat i == 0) = false := by
        simp only [beq_eq_false_iff_ne]; omega
      have hstepE : kthAux t k (f + 1) i u = kthAux t k f (i + 1) (upv t u.toNat i) := by
        simp only [kthAux, intTestBit_nonneg hk, hb, if_true, hrow, hcell, h0,
          Bool.false_eq_true, if_false]
      have hsum' : (partSum k.toNat (i + 1) f : Int) ≤ depv t (upv t u.toNat i).toNat := by
        rw [hwd]; rw [hstep] at hsum; push_cast at hsum ⊢; omega
      obtain ⟨w, hw, hww1, hww2, hwwd⟩ := ih (i + 1) (upv t u.toNat i) (by omega) hw1 hwr.2 hsum'
      refine ⟨w, by rw [hstepE]; exact hw, hww1, hww2, ?_⟩
      rw [hwwd, hwd, hstep]; push_cast; ring
    · have hstep : partSum k.toNat i (f + 1) = partSum k.toNat (i + 1) f := by
        simp [partSum, hb]
      have hstepE : kthAux t k (f + 1) i u = kthAux t k f (i + 1) u := by
        simp only [kthAux, intTestBit_nonneg hk, hb, Bool.false_eq_true, if_false]
      obtain ⟨w, hw, hww1, hww2, hwwd⟩ := ih (i + 1) u (by omega) hu1 hu2
        (by rw [hstep] at hsum; exact hsum)
      refine ⟨w, by rw [hstepE]; exact hw, hww1, hww2, ?_⟩
      rw [hwwd, hstep]

/-- When the bit-slice still to scan exceeds the node's depth, the walk of
`get_kth_ancestor` falls off the root and returns the sentinel 0. -/
theorem kthAux_overflow (t : Tree) (hV : Valid t) {k : Int} (hk : 0 ≤ k) :
    ∀ (fuel i : Nat) (u : Int), i + fuel ≤ t.LOGN + 1 →
      1 ≤ u → u ≤ (t.n : Int) →
      depv t u.toNat < (partSum k.toNat i fuel : Int) →
      kthAux t k fuel i u = .ok 0 := by
  intro fuel
  induction fuel with
  | zero =>
    intro i u _ hu1 hu2 hlt
    exfalso
    have h0 := (hV.hdepRange u.toNat (by omega)).1
    simp [partSum] at hlt
    omega
  | succ f ih =>
    intro i u hle hu1 hu2 hlt
    have hiL : i ≤ t.LOGN := by omega
    have huN : u.toNat ≤ t.n := by omega
    have h1u : 1 ≤ u.toNat := by omega
    by_cases hb : k.toNat.testBit i
    · have hstep : partSum k.toNat i (f + 1) = 2 ^ i + partSum k.toNat (i + 1) f := by
        simp [partSum, hb]
      have hrow : pyGet t.up u = .ok (t.up.getD u.toNat default) :=
        pyGet_ok _ _ (by omega) (by rw [hV.hupLen]; omega)
      have hrlen : (t.up.getD u.toNat default).length = t.LOGN + 1 := by
        simpa using hV.hrowLen u.toNat huN
      have hcell : pyGet (t.up.getD u.toNat default) (i : Int) = .ok (upv t u.toNat i) := by
        rw [pyGet_natOk _ i (by rw [hrlen]; omega)]; simp [upv]
      by_cases hd : (2 ^ i : Int) ≤ depv t u.toNat
      · obtain ⟨hw1, hwd⟩ := hV.hupPos u.toNat huN h1u i hiL hd
        have hwr := hV.hupRange u.toNat huN i hiL
        have h0 : (upv t u.toNat i == 0) = false := by
          simp only [beq_eq_false_iff_ne]; omega
        have hstepE : kthAux t k (f + 1) i u = kthAux t k f (i + 1) (upv t u.toNat i) := by
          simp only [kthAux, intTestBit_nonneg hk, hb, if_true, hrow, hcell, h0,
            Bool.false_eq_true, if_false]
        rw [hstepE]
        refine ih (i + 1) (upv t u.toNat i) (by omega) hw1 hwr.2 ?_
        rw [hwd]; rw [hstep] at hlt; push_cast at hlt ⊢; omega
      · have h0 : upv t u.toNat i = 0 := hV.hupNeg u.toNat huN h1u i hiL (by omega)
        simp only [kthAux, intTestBit_nonneg hk, hb, if_true, hrow, hcell, h0]
        simp
    · have hstep : partSum k.toNat i (f + 1) = partSum k.toNat (i + 1) f := by
        simp [partSum, hb]
      have hstepE : kthAux t k (f + 1) i u = kthAux t k f (i + 1) u := by
        simp only [kthAux, intTestBit_nonneg hk, hb, Bool.false_eq_true, if_false]
      rw [hstepE]
      exact ih (i + 1) u (by omega) hu1 hu2 (by rw [hstep] at hlt; exact hlt)

/-- C4 counterexample: `k = 16` has no bit in the scanned range
`0..LOGN = 3` of the star tree, so `get_kth_ancestor(1, 16)` returns node 1
(not the sentinel), whose depth 0 differs from `depth[1] - 16`. -/
theorem C4_counterexample :
    star4.get_kth_ancestor 1 16 = .ok (1, star4) ∧
    pyGet star4.depth 1 = .ok 0 ∧ (0 : Int) ≠ 0 - 16 := by
  refine ⟨by decide, by decide, by decide⟩

/-- On a valid tree, `get_kth_ancestor` from an in-range node with
non-negative `k` always returns a value: the sentinel 0, or an in-range
node exactly the scanned bit-slice of `k` higher. -/
theorem kth_total (t : Tree) (hV : Valid t) {u k : Int}
    (hu1 : 1 ≤ u) (hu2 : u ≤ (t.n : Int)) (hk : 0 ≤ k) :
    ∃ r : Int, t.get_kth_ancestor u k = .ok (r, t) ∧
      (r = 0 ∨ (1 ≤ r ∧ r ≤ (t.n : Int) ∧
        depv t r.toNat = depv t u.toNat - (partSum k.toNat 0 (t.LOGN + 1) : Int))) := by
  by_cases hcmp : (partSum k.toNat 0 (t.LOGN + 1) : Int) ≤ depv t u.toNat
  · obtain ⟨w, hw, h1, h2, h3⟩ :=
      kthAux_descend t hV hk (t.LOGN + 1) 0 u (by omega) hu1 hu2 hcmp
    exact ⟨w, by rw [Tree.get_kth_ancestor, hw], Or.inr ⟨h1, h2, h3⟩⟩
  · have hw := kthAux_overflow t hV hk (t.LOGN + 1) 0 u (by omega) hu1 hu2 (by omega)
    exact ⟨0, by rw [Tree.get_kth_ancestor, hw], Or.inl rfl⟩

/-- From any node id in `[0, n]` the walk of `get_kth_ancestor` succeeds,
whatever `k` is, and stays inside `[0, n]`: every hop lands on a lifting
table entry and the walk breaks on the sentinel. -/
theorem kthAux_total_inRange (t : Tree) (hV : Valid t) (k : Int) :
    ∀ (fuel i : Nat) (u : Int), i + fuel ≤ t.LOGN + 1 → 0 ≤ u → u ≤ (t.n : Int) →
      ∃ r : Int, kthAux t k fuel i u = .ok r ∧ 0 ≤ r ∧ r ≤ (t.n : Int) := by
  intro fuel
  induction fuel with
  | zero => intro i u _ h0 h2; exact ⟨u, rfl, h0, h2⟩
  | succ f ih =>
    intro i u hle h0 h2
    by_cases hb : intTestBit k i = true
    · have huN : u.toNat ≤ t.n := by omega
      have hrow : pyGet t.up u = .ok (t.up.getD u.toNat default) :=
        pyGet_ok _ _ (by omega) (by rw [hV.hupLen]; push_cast; omega)
      have hrlen : (t.up.getD u.toNat default).length = t.LOGN + 1 := by
        simpa using hV.hrowLen u.toNat huN
      have hcell : pyGet (t.up.getD u.toNat default) (i : Int) = .ok (upv t u.toNat i) := by
        rw [pyGet_natOk _ i (by rw [hrlen]; omega)]; simp [upv]
      have hr := hV.hupRange u.toNat huN i (by omega)
      by_cases h00 : upv t u.toNat i = 0
      · refine ⟨0, ?_, le_refl 0, by omega⟩
        simp only [kthAux, hb, if_true, hrow, hcell, h00]
        simp
      · obtain ⟨r, hrr, ha, hbb⟩ := ih (i + 1) (upv t u.toNat i) (by omega) hr.1 hr.2
        refine ⟨r, ?_, ha, hbb⟩
        simp only [kthAux, hb, if_true, hrow, hcell]
        rw [if_neg (by simp [h00])]
        exact hrr
    · obtain ⟨r, hrr, ha, hbb⟩ := ih (i + 1) u (by omega) h0 h2
      refine ⟨r, ?_, ha, hbb⟩
      simp only [kthAux, hb, Bool.false_eq_true, if_false]
      exact hrr

/-- `get_kth_ancestor` returns an in-range value from any node id in
`[0, n]`, for every `k`. -/
theorem kth_total_inRange (t : Tree) (hV : Valid t) {u : Int} (k : Int)
    (hu0 : 0 ≤ u) (hu2 : u ≤ (t.n : Int)) :
    ∃ r : Int, t.get_kth_ancestor u k = .ok (r, t) ∧ 0 ≤ r ∧ r ≤ (t.n : Int) := by
  obtain ⟨r, hr, ha, hb⟩ := kthAux_total_inRange t hV k (t.LOGN + 1) 0 u (by omega) hu0 hu2
  exact ⟨r, by rw [Tree.get_kth_ancestor, hr], ha, hb⟩

/-- The dead climb loop of `get_farthest_distance` always returns a value
when started from an index accepted by the preceding subscripts. -/
theorem liftLoop_total (t : Tree) (hV : Valid t) :
    ∀ (fuel : Nat), fuel ≤ t.LOGN + 1 → ∀ (u sl : Int),
      -(t.n + 1 : Int) ≤ u → u ≤ (t.n : Int) →
      ∃ p, liftLoop t fuel u sl = .ok p := by
  intro fuel
  induction fuel with
  | zero => intro _ u sl _ _; exact ⟨(u, sl), rfl⟩
  | succ f ih =>
    intro hle u sl hu1 hu2
    by_cases hc : (2 ^ f : Int) ≤ sl
    · obtain ⟨j, hj, hrow⟩ := pyGet_ok_ex t.up u
        (by rw [hV.hupLen]; push_cast; omega) (by rw [hV.hupLen]; push_cast; omega)
      rw [hV.hupLen] at hj
      have hjn : j ≤ t.n := by omega
      have hrlen : (t.up.getD j default).length = t.LOGN + 1 := by
        simpa using hV.hrowLen j hjn
      have hcell : pyGet (t.up.getD j default) (f : Int) = .ok (upv t j f) := by
        rw [pyGet_natOk _ f (by omega)]; simp [upv]
      simp only [liftLoop, if_pos hc, hrow, hcell]
      have hr := hV.hupRange j hjn f (by omega)
      by_cases h0 : upv t j f = 0
      · rw [if_pos (by simp [h0])]
        exact ih (by omega) u sl hu1 hu2
      · rw [if_neg (by simp [h0])]
        exact ih (by omega) (upv t j f) (sl - 2 ^ f) (by omega) (by omega)
    · simp only [liftLoop, if_neg hc]
      exact ih (by omega) u sl hu1 hu2

/-- If `get_kth_ancestor` returns, the tree it hands back is the one it was
called on. -/
theorem kth_state {t : Tree} {u k r : Int} {t' : Tree}
    (h : t.get_kth_ancestor u k = .ok (r, t')) : t' = t := by
  rw [Tree.get_kth_ancestor] at h
  cases hx : kthAux t k (t.LOGN + 1) 0 u with
  | error e => rw [hx] at h; cases h
  | ok r0 => rw [hx] at h; cases h; rfl

/-- The candidate loop of `get_farthest_distance` always returns a value at
least its accumulator, handing back the tree unchanged; node id 0 (the
sentinel row) is as acceptable to it as a real node. -/
theorem candLoop_total (t : Tree) (hV : Valid t) {v : Int}
    (hv0 : 0 ≤ v) (hv2 : v ≤ (t.n : Int)) (dv : Int) :
    ∀ (fuel : Nat) (used maxd : Int), 1 ≤ used →
      ∃ r, candLoop v dv fuel used maxd t = .ok (r, t) ∧ maxd ≤ r := by
  intro fuel
  induction fuel with
  | zero => intro used maxd _; exact ⟨maxd, rfl, le_refl maxd⟩
  | succ f ih =>
    intro used maxd hused
    obtain ⟨r, hr, hr0, hrn⟩ := kth_total_inRange t hV used hv0 hv2
    simp only [candLoop, hr]
    by_cases h0 : r = 0
    · rw [if_pos (by simp [h0])]
      exact ⟨maxd, rfl, le_refl maxd⟩
    · rw [if_neg (by simp [h0])]
      have hmd : pyGet t.max_depth_in_subtree r = .ok (mdep t r.toNat) := by
        rw [pyGet_ok _ _ (by omega) (by rw [hV.hmaxLen]; push_cast; omega)]
        simp [mdep]
      simp only [hmd]
      obtain ⟨r', hr', hge⟩ := ih (used + 1)
        (if maxd < mdep t r.toNat - dv + used then mdep t r.toNat - dv + used else maxd)
        (by omega)
      refine ⟨r', hr', le_trans ?_ hge⟩
      split <;> omega

/-- More iterations of the candidate loop never decrease its answer. -/
theorem candLoop_mono (t : Tree) (hV : Valid t) {v : Int}
    (hv1 : 1 ≤ v) (hv2 : v ≤ (t.n : Int)) (dv : Int) :
    ∀ (f1 f2 : Nat), f1 ≤ f2 → ∀ (used maxd : Int), 1 ≤ used →
      ∀ r1 r2, candLoop v dv f1 used maxd t = .ok (r1, t) →
        candLoop v dv f2 used maxd t = .ok (r2, t) → r1 ≤ r2 := by
  intro f1
  induction f1 with
  | zero =>
    intro f2 _ used maxd hused r1 r2 h1 h2
    rw [candLoop] at h1
    cases h1
    obtain ⟨r, hr, hge⟩ := candLoop_total t hV (by omega) hv2 dv f2 used maxd hused
    rw [hr] at h2
    cases h2
    exact hge
  | succ f1' ih =>
    intro f2 hle used maxd hused r1 r2 h1 h2
    cases f2 with
    | zero => omega
    | succ f2' =>
      obtain ⟨r, hr, hcases⟩ := kth_total t hV hv1 hv2 (by omega : (0 : Int) ≤ used)
      simp only [candLoop, hr] at h1 h2
      rcases hcases with h0 | ⟨hr1, hr2, _⟩
      · rw [if_pos (by simp [h0])] at h1 h2
        cases h1; cases h2
        omega
      · rw [if_neg (by simp; omega)] at h1 h2
        have hmd : pyGet t.max_depth_in_subtree r = .ok (mdep t r.toNat) := by
          rw [pyGet_ok _ _ (by omega) (by rw [hV.hmaxLen]; push_cast; omega)]
          simp [mdep]
        simp only [hmd] at h1 h2
        exact ih f2' (by omega) (used + 1) _ (by omega) r1 r2 h1 h2

/-- On a valid tree, `get_farthest_distance` from an in-range node is the
candidate loop started from the pure-descent baseline. -/
theorem farthest_eq_cand (t : Tree) (hV : Valid t) {v : Int}
    (hv1 : 1 ≤ v) (hv2 : v ≤ (t.n : Int)) (s : Int) :
    t.get_farthest_distance v s =
      candLoop v (depv t v.toNat) s.toNat 1 (mdep t v.toNat - depv t v.toNat) t := by
  rw [Tree.get_farthest_distance, if_neg (by rw [hV.hpre]; simp)]
  have hmv : pyGet t.max_depth_in_subtree v = .ok (mdep t v.toNat) := by
    rw [pyGet_ok _ _ (by omega) (by rw [hV.hmaxLen]; push_cast; omega)]
    simp [mdep]
  have hdv : pyGet t.depth v = .ok (depv t v.toNat) := by
    rw [pyGet_ok _ _ (by omega) (by rw [hV.hdepLen]; push_cast; omega)]
    simp [depv]
  rw [hmv, hdv]
  obtain ⟨p, hp⟩ := liftLoop_total t hV (t.LOGN + 1) le_rfl v s (by omega) (by omega)
  rw [hp]

/-- The candidate loop hands back the tree it was called on. -/
theorem cand_state {v dv : Int} : ∀ (fuel : Nat) (used maxd : Int) (t : Tree)
    (r : Int) (t' : Tree), candLoop v dv fuel used maxd t = .ok (r, t') → t' = t := by
  intro fuel
  induction fuel with
  | zero =>
    intro used maxd t r t' h
    rw [candLoop] at h
    cases h
    rfl
  | succ f ih =>
    intro used maxd t r t' h
    cases hk : t.get_kth_ancestor v used with
    | error e => simp only [candLoop, hk] at h; cases h
    | ok p =>
      obtain ⟨ua, t2⟩ := p
      rw [kth_state hk] at hk
      simp only [candLoop, hk] at h
      by_cases h0 : (ua == 0) = true
      · rw [if_pos h0] at h
        cases h
        rfl
      · rw [if_neg h0] at h
        cases hm : pyGet t.max_depth_in_subtree ua with
        | error e => simp only [hm] at h; cases h
        | ok ma =>
          simp only [hm] at h
          exact ih _ _ _ _ _ h

/-- If `is_ancestor` returns, the tree it hands back is the one it was
called on. -/
theorem is_ancestor_state {t : Tree} {u v : Int} {b : Bool} {t' : Tree}
    (h : t.is_ancestor u v = .ok (b, t')) : t' = t := by
  cases hdv : pyGet t.depth v with
  | error e => simp only [Tree.is_ancestor, hdv] at h; cases h
  | ok dv =>
    cases hdu : pyGet t.depth u with
    | error e => simp only [Tree.is_ancestor, hdv, hdu] at h; cases h
    | ok du =>
      simp only [Tree.is_ancestor, hdv, hdu] at h
      by_cases hlt : dv < du
      · rw [if_pos hlt] at h
        cases h
        rfl
      · rw [if_neg hlt] at h
        cases hk : t.get_kth_ancestor v (dv - du) with
        | error e => simp only [hk] at h; cases h
        | ok p =>
          obtain ⟨vup, t2⟩ := p
          have ht2 : t2 = t := kth_state hk
          simp only [hk] at h
          cases h
          exact ht2

/-- If `get_farthest_distance` returns, the tree it hands back is the one
it was called on. -/
theorem farthest_state {t : Tree} {v s r : Int} {t' : Tree}
    (h : t.get_farthest_distance v s = .ok (r, t')) : t' = t := by
  rw [Tree.get_farthest_distance] at h
  by_cases hp : t._preprocessed = false
  · rw [if_pos hp] at h
    cases h
  · rw [if_neg hp] at h
    cases hm : pyGet t.max_depth_in_subtree v with
    | error e => simp only [hm] at h; cases h
    | ok mv =>
      simp only [hm] at h
      cases hd : pyGet t.depth v with
      | error e => simp only [hd] at h; cases h
      | ok dv =>
        simp only [hd] at h
        cases hl : liftLoop t (t.LOGN + 1) v s with
        | error e => simp only [hl] at h; cases h
        | ok p =>
          simp only [hl] at h
          exact cand_state _ _ _ _ _ _ h

/-- C2: on a valid preprocessed tree, a zero-stamina farthest query returns
exactly `max_depth_in_subtree[v] - depth[v]`, and that value is
non-negative. -/
theorem C2_zero_stamina_baseline (t : Tree) (hV : Valid t) (v : Int)
    (hv1 : 1 ≤ v) (hv2 : v ≤ (t.n : Int)) :
    t.get_farthest_distance v 0 = .ok (mdep t v.toNat - depv t v.toNat, t) ∧
    0 ≤ mdep t v.toNat - depv t v.toNat := by
  constructor
  · rw [farthest_eq_cand t hV hv1 hv2 0]
    rfl
  · have h1 := hV.hregM v.toNat (by omega) (by omega)
    omega

/-- C2 witness: the baseline equation instantiated on the star tree at the
root. -/
theorem C2_witness :
    star4.get_farthest_distance 1 0 = .ok (mdep star4 (1 : Int).toNat - depv star4 (1 : Int).toNat, star4) ∧
    0 ≤ mdep star4 (1 : Int).toNat - depv star4 (1 : Int).toNat :=
  C2_zero_stamina_baseline star4 star4_valid 1 (by decide) (by decide)

/-- C3: on a valid preprocessed tree the farthest-reachable answer is
monotonically non-decreasing in the stamina argument. -/
theorem C3_stamina_monotone (t : Tree) (hV : Valid t) (v s1 s2 : Int)
    (hv1 : 1 ≤ v) (hv2 : v ≤ (t.n : Int)) (_hs1 : 0 ≤ s1) (hs : s1 ≤ s2) :
    ∃ r1 r2 : Int, t.get_farthest_distance v s1 = .ok (r1, t) ∧
      t.get_farthest_distance v s2 = .ok (r2, t) ∧ r1 ≤ r2 := by
  obtain ⟨r1, h1, _⟩ := candLoop_total t hV (by omega) hv2 (depv t v.toNat) s1.toNat 1
    (mdep t v.toNat - depv t v.toNat) le_rfl
  obtain ⟨r2, h2, _⟩ := candLoop_total t hV (by omega) hv2 (depv t v.toNat) s2.toNat 1
    (mdep t v.toNat - depv t v.toNat) le_rfl
  refine ⟨r1, r2, ?_, ?_, ?_⟩
  · rw [farthest_eq_cand t hV hv1 hv2 s1]; exact h1
  · rw [farthest_eq_cand t hV hv1 hv2 s2]; exact h2
  · exact candLoop_mono t hV hv1 hv2 _ s1.toNat s2.toNat (Int.toNat_le_toNat hs)
      1 _ le_rfl r1 r2 h1 h2

/-- C3 witness: monotonicity instantiated on the star tree at node 2 with
stamina 0 and 1. -/
theorem C3_witness :
    ∃ r1 r2 : Int, star4.get_farthest_distance 2 0 = .ok (r1, star4) ∧
      star4.get_farthest_distance 2 1 = .ok (r2, star4) ∧ r1 ≤ r2 :=
  C3_stamina_monotone star4 star4_valid 2 0 1 (by decide) (by decide) (by decide)
    (by decide)

/-- C4 amended: for a valid preprocessed tree, a node `v` in `[1, n]` and a
non-negative `k` below `2 ^ (LOGN + 1)` (so that every bit of `k` lies in
the scanned window), a non-sentinel answer of `get_kth_ancestor(v, k)` sits
exactly `k` levels above `v`. -/
theorem C4_kth_ancestor_depth (t : Tree) (hV : Valid t) (v k : Int)
    (hv1 : 1 ≤ v) (hv2 : v ≤ (t.n : Int)) (hk : 0 ≤ k)
    (hkw : k < 2 ^ (t.LOGN + 1)) (r : Int)
    (hr : t.get_kth_ancestor v k = .ok (r, t)) (hr0 : r ≠ 0) :
    ∃ d dr : Int, pyGet t.depth v = .ok d ∧ pyGet t.depth r = .ok dr ∧
      dr = d - k := by
  have hps : partSum k.toNat 0 (t.LOGN + 1) = k.toNat := by
    refine partSum_full _ _ ?_
    zify
    rw [Int.toNat_of_nonneg hk]
    exact_mod_cast hkw
  by_cases hcmp : (partSum k.toNat 0 (t.LOGN + 1) : Int) ≤ depv t v.toNat
  · obtain ⟨w, hw, hw1, hw2, hwd⟩ :=
      kthAux_descend t hV hk (t.LOGN + 1) 0 v (by omega) hv1 hv2 hcmp
    simp only [Tree.get_kth_ancestor, hw] at hr
    have hwr : w = r := by simpa using hr
    subst hwr
    refine ⟨depv t v.toNat, depv t w.toNat, ?_, ?_, ?_⟩
    · rw [pyGet_ok _ _ (by omega) (by rw [hV.hdepLen]; push_cast; omega)]
      simp [depv]
    · rw [pyGet_ok _ _ (by omega) (by rw [hV.hdepLen]; push_cast; omega)]
      simp [depv]
    · rw [hwd, hps, Int.toNat_of_nonneg hk]
  · exfalso
    have h0 := kthAux_overflow t hV hk (t.LOGN + 1) 0 v (by omega) hv1 hv2 (by omega)
    simp only [Tree.get_kth_ancestor, h0] at hr
    have : (0 : Int) = r := by simpa using hr
    exact hr0 this.symm

/-- C4 witness: the amended theorem instantiated on the star tree for the
parent of node 2. -/
theorem C4_witness :
    ∃ d dr : Int, pyGet star4.depth 2 = .ok d ∧ pyGet star4.depth 1 = .ok dr ∧
      dr = d - 1 :=
  C4_kth_ancestor_depth star4 star4_valid 2 1 (by decide) (by decide) (by decide)
    (by decide) 1 (by decide) (by decide)

/-- C8: on a valid preprocessed tree the root 1 is an ancestor of every
node in `[1, n]`, and every node in `[1, n]` is its own ancestor. -/
theorem C8_root_and_self_ancestor (t : Tree) (hV : Valid t) :
    (∀ v : Int, 1 ≤ v → v ≤ (t.n : Int) → t.is_ancestor 1 v = .ok (true, t)) ∧
    (∀ u : Int, 1 ≤ u → u ≤ (t.n : Int) → t.is_ancestor u u = .ok (true, t)) := by
  constructor
  · intro v hv1 hv2
    have hvN : v.toNat ≤ t.n := by omega
    have hdep := hV.hdepRange v.toNat hvN
    have hdv : pyGet t.depth v = .ok (depv t v.toNat) := by
      rw [pyGet_ok _ _ (by omega) (by rw [hV.hdepLen]; push_cast; omega)]
      simp [depv]
    have hd1 : pyGet t.depth 1 = .ok (depv t 1) := by
      rw [pyGet_ok _ _ (by omega) (by rw [hV.hdepLen]; push_cast; omega)]
      simp [depv]
    have hnpow : t.n < 2 ^ t.LOGN := n_lt_two_pow hV
    have hksmall : (depv t v.toNat).toNat < 2 ^ (t.LOGN + 1) := by
      have hmono : (2 : Nat) ^ t.LOGN ≤ 2 ^ (t.LOGN + 1) :=
        Nat.pow_le_pow_right (by norm_num) (by omega)
      omega
    have hps : partSum (depv t v.toNat).toNat 0 (t.LOGN + 1) =
        (depv t v.toNat).toNat := partSum_full _ _ hksmall
    obtain ⟨w, hw, hw1, hw2, hwd⟩ :=
      kthAux_descend t hV (k := depv t v.toNat) hdep.1 (t.LOGN + 1) 0 v
        (by omega) hv1 hv2 (by rw [hps, Int.toNat_of_nonneg hdep.1])
    have hw0 : w = 1 := by
      have hz : depv t w.toNat = 0 := by
        rw [hwd, hps, Int.toNat_of_nonneg hdep.1]
        omega
      have := hV.hrootUniq w.toNat (by omega) (by omega) hz
      omega
    simp only [Tree.is_ancestor, hdv, hd1, hV.hroot, sub_zero]
    rw [if_neg (by omega)]
    simp only [Tree.get_kth_ancestor, hw, hw0]
    simp
  · intro u hu1 hu2
    have hdu : pyGet t.depth u = .ok (depv t u.toNat) := by
      rw [pyGet_ok _ _ (by omega) (by rw [hV.hdepLen]; push_cast; omega)]
      simp [depv]
    simp only [Tree.is_ancestor, hdu]
    rw [if_neg (lt_irrefl _), sub_self]
    simp only [Tree.get_kth_ancestor, kthAux_zero]
    simp

/-- C8 witness: both parts instantiated on the star tree at node 3. -/
theorem C8_witness :
    star4.is_ancestor 1 3 = .ok (true, star4) ∧
    star4.is_ancestor 3 3 = .ok (true, star4) :=
  ⟨(C8_root_and_self_ancestor star4 star4_valid).1 3 (by decide) (by decide),
   (C8_root_and_self_ancestor star4 star4_valid).2 3 (by decide) (by decide)⟩

/-- C9: the three query operations leave the tree unchanged, so repeating
the same query against the tree they hand back yields the identical
result. -/
theorem C9_queries_pure (t : Tree) (u v k s : Int) :
    (∀ (r : Int) (t' : Tree), t.get_kth_ancestor u k = .ok (r, t') →
      t' = t ∧ t'.get_kth_ancestor u k = .ok (r, t')) ∧
    (∀ (b : Bool) (t' : Tree), t.is_ancestor u v = .ok (b, t') →
      t' = t ∧ t'.is_ancestor u v = .ok (b, t')) ∧
    (∀ (r : Int) (t' : Tree), t.get_farthest_distance v s = .ok (r, t') →
      t' = t ∧ t'.get_farthest_distance v s = .ok (r, t')) := by
  refine ⟨fun r t' h => ?_, fun b t' h => ?_, fun r t' h => ?_⟩
  · have ht := kth_state h
    subst ht
    exact ⟨rfl, h⟩
  · have ht := is_ancestor_state h
    subst ht
    exact ⟨rfl, h⟩
  · have ht := farthest_state h
    subst ht
    exact ⟨rfl, h⟩

/-- C9 witness: purity of the k-th-ancestor query on the concrete star
tree. -/
theorem C9_witness :
    star4 = star4 ∧ star4.get_kth_ancestor 1 1 = .ok (0, star4) :=
  (C9_queries_pure star4 1 2 1 0).1 0 star4 (by decide)

/-- C10: on a preprocessed tree, `get_farthest_distance` agrees with the
function obtained by deleting its first binary-lifting loop, for every
input pair: the loop's outputs are dead (`u` is reassigned to `v` before
use) and under the preprocessing invariant the loop cannot fail either. -/
theorem C10_climb_loop_dead (t : Tree) (hV : Valid t) (v s : Int) :
    t.get_farthest_distance v s = t.farthestNoClimbLoop v s := by
  rw [Tree.get_farthest_distance, Tree.farthestNoClimbLoop]
  by_cases hp : t._preprocessed = false
  · rw [if_pos hp, if_pos hp]
  · rw [if_neg hp, if_neg hp]
    cases hm : pyGet t.max_depth_in_subtree v with
    | error e => simp only [hm]
    | ok mv =>
      simp only [hm]
      cases hd : pyGet t.depth v with
      | error e => simp only [hd]
      | ok dv =>
        simp only [hd]
        have hb := pyGet_ok_range hm
        rw [hV.hmaxLen] at hb
        obtain ⟨p, hp2⟩ := liftLoop_total t hV (t.LOGN + 1) le_rfl v s
          (by push_cast at hb; omega) (by push_cast at hb; omega)
        simp only [hp2]

/-- C10 witness: the two functions agree on the star tree at `(2, 1)`. -/
theorem C10_witness :
    star4.get_farthest_distance 2 1 = star4.farthestNoClimbLoop 2 1 :=
  C10_climb_loop_dead star4 star4_valid 2 1

/-- C7 amended: not every out-of-range node id is rejected: a query whose
node id is greater than `n` makes the farthest-reachable query fail with an
uncaught IndexError raised by the list subscript itself (there is no
deliberate range check), while a query at the out-of-range node id 0 is
never rejected: on every valid preprocessed tree and every stamina it
returns a value read from the sentinel row. -/
theorem C7_out_of_range (t : Tree) (hV : Valid t) :
    (∀ v s : Int, (t.n : Int) < v →
      t.get_farthest_distance v s = .error .indexError) ∧
    (∀ s : Int, ∃ r : Int, t.get_farthest_distance 0 s = .ok (r, t)) := by
  refine ⟨fun v s hv => ?_, fun s => ?_⟩
  · have h1 : ¬ ((0 : Int) ≤ v ∧ v < (t.max_depth_in_subtree.length : Int)) := by
      rw [hV.hmaxLen]; push_cast; omega
    have h2 : ¬ (-(t.max_depth_in_subtree.length : Int) ≤ v ∧ v < 0) := by
      rw [hV.hmaxLen]; push_cast; omega
    simp [Tree.get_farthest_distance, hV.hpre, pyGet, h1, h2]
  · have hmv : pyGet t.max_depth_in_subtree 0 = .ok (mdep t 0) := by
      rw [pyGet_ok _ _ (by omega) (by rw [hV.hmaxLen]; push_cast; omega)]
      simp [mdep]
    have hdv : pyGet t.depth 0 = .ok (depv t 0) := by
      rw [pyGet_ok _ _ (by omega) (by rw [hV.hdepLen]; push_cast; omega)]
      simp [depv]
    obtain ⟨p, hp2⟩ := liftLoop_total t hV (t.LOGN + 1) le_rfl 0 s (by omega) (by omega)
    obtain ⟨r, hr, _⟩ := candLoop_total t hV (le_refl (0 : Int)) (by omega)
      (depv t 0) s.toNat 1 (mdep t 0 - depv t 0) le_rfl
    refine ⟨r, ?_⟩
    rw [Tree.get_farthest_distance, if_neg (by rw [hV.hpre]; simp)]
    simp only [hmv, hdv, hp2]
    exact hr

/-- C7 witness: node 5 of the 4-node star tree fails with an IndexError,
while the out-of-range node 0 is answered. -/
theorem C7_witness :
    star4.get_farthest_distance 5 0 = .error .indexError ∧
    ∃ r : Int, star4.get_farthest_distance 0 0 = .ok (r, star4) :=
  ⟨(C7_out_of_range star4 star4_valid).1 5 0 (by decide),
   (C7_out_of_range star4 star4_valid).2 0⟩

end Chefir
